import Mathlib

/-!
Verification of the control-flow combinators of the async_btree repository
(file src/async_btree/control.py) against its natural-language specification.

The embedding is shallow: each combinator body is translated into a pure Lean
function.  A child node is modelled by the outcome of its evaluation: either a
returned value or a raised exception.  The awaited evaluation order of the
sequential combinators is the list order, so a list of outcomes fully
determines an evaluation.  Every evaluator additionally returns the number of
children actually evaluated, which makes short-circuiting observable.
-/

namespace AsyncBtree

/-- Modelled from the spec: the Result value type (section 3).  Leaf values are
arbitrary, with Python truthiness deciding Success versus Failure; we record a
truthiness bit and an identity tag.  `failure` is the generic falsy FAILURE
marker of common.py (not under src/).  `exc e` is `ControlFlowException(e)` of
common.py (not under src/): per the spec a captured error is converted into a
Failure (hence falsy) carrying the original error.  `agg rs` is the plain
Python list of accumulated results that `_sequence` returns on success; a
Python list is truthy iff non-empty. -/
inductive Result where
  | val (truthy : Bool) (id : Nat)
  | failure
  | exc (e : Nat)
  | agg (rs : List Result)

/-- Python truthiness of a Result, as used by the `if last_result:` test in
`_sequence` and the condition tests in `_decision` / `_repeat_until`. -/
def Result.toBool : Result → Bool
  | .val b _ => b
  | .failure => false
  | .exc _ => false
  | .agg rs => !rs.isEmpty

/-- The outcome of awaiting one child: the child either returns a Result value
or raises an error (identified by a numeric tag). -/
inductive Outcome where
  | ret (v : Result)
  | raise (e : Nat)

/-- The try/except around `await child()` in `_sequence` (control.py lines
43-46) and `_repeat_until` (lines 126-130): a returned value is kept, a raised
error `e` is replaced by `ControlFlowException(e)`. -/
def evalChild : Outcome → Result
  | .ret v => v
  | .raise e => .exc e

/-- The loop body of `_sequence` (control.py lines 38-61).  Arguments: success
threshold, failure threshold, remaining children, success count, failure
count, accumulated results.  Returns the Result together with the number of
children evaluated.  The final `(Result.failure, 0)` for the empty list is the
post-loop `return FAILURE` of line 61. -/
def seqLoop (st ft : Nat) : List Outcome → Nat → Nat → List Result → Result × Nat
  | [], _, _, _ => (Result.failure, 0)
  | c :: cs, s, f, results =>
    if (evalChild c).toBool then
      if s + 1 = st then (Result.agg (results ++ [evalChild c]), 1)
      else
        ((seqLoop st ft cs (s + 1) f (results ++ [evalChild c])).1,
         (seqLoop st ft cs (s + 1) f (results ++ [evalChild c])).2 + 1)
    else
      if f + 1 = ft then (evalChild c, 1)
      else
        ((seqLoop st ft cs s (f + 1) (results ++ [evalChild c])).1,
         (seqLoop st ft cs s (f + 1) (results ++ [evalChild c])).2 + 1)

/-- The threshold defaulting of control.py line 32,
`succes_threshold = succes_threshold if succes_threshold else len(children)`:
a missing argument (None) and an explicit 0 are both falsy in Python, so both
become `len(children)`. -/
def effThreshold (n : Nat) (t? : Option Nat) : Nat :=
  match t? with
  | none => n
  | some k => if k = 0 then n else k

/-- The `sequence` constructor plus one evaluation of the node it builds
(control.py lines 13-63).  `none` is the construction-time assertion
`0 <= succes_threshold <= len(children)` failing (the construction raises);
otherwise the pair is the evaluation's Result and the number of children
evaluated.  `failure_threshold = len(children) - succes_threshold + 1`
(line 34). -/
def sequence (children : List Outcome) (t? : Option Nat) : Option (Result × Nat) :=
  if effThreshold children.length t? ≤ children.length then
    some (seqLoop (effThreshold children.length t?)
      (children.length - effThreshold children.length t? + 1) children 0 0 [])
  else none

/-- The `fallback` constructor (control.py lines 66-82):
`sequence(children, succes_threshold=min(1, len(children)))`. -/
def fallback (children : List Outcome) : Option (Result × Nat) :=
  sequence children (some (min 1 children.length))

/-- The `selector` synonym of fallback (control.py line 85). -/
def selector (children : List Outcome) : Option (Result × Nat) :=
  fallback children

/-- One evaluation of the node built by `decision` (control.py lines 91-109).
The condition, success tree and failure tree are given by their outcomes; the
body has no try/except, so a raised error anywhere propagates out.  The two
booleans record whether the success tree, respectively the failure tree, was
evaluated during this call. -/
def decisionEval (condition sTree : Outcome) (fTree : Option Outcome) :
    Outcome × Bool × Bool :=
  match condition with
  | .raise e => (.raise e, false, false)
  | .ret c =>
    if c.toBool then (sTree, true, false)
    else
      match fTree with
      | some t => (t, false, true)
      | none => (.ret Result.failure, false, false)

/-- The while loop of `_repeat_until` (control.py lines 122-132).  `cond i`
is the outcome of the i-th evaluation of the condition and `child i` the
outcome of the i-th evaluation of the child.  Modelled from the spec:
`is_success` (decorator.py, not under src/) wraps the condition so the loop
continues exactly while the condition's result is truthy; the spec gives it no
error handling, so a raised condition error propagates out of the loop (there
is no try/except around the loop test).  A raised child error is caught and
recorded (lines 126-130).  `fuel` bounds the number of loop iterations the
model executes (the Python loop has no such bound and may diverge); `none`
means the fuel ran out before the loop terminated.  On termination the pair is
the loop's outcome and the number of child evaluations performed. -/
def repeatUntilGo (cond child : Nat → Outcome) : Nat → Nat → Result → Option (Outcome × Nat)
  | 0, _, _ => none
  | fuel + 1, i, result =>
    match cond i with
    | .raise e => some (.raise e, i)
    | .ret c =>
      if c.toBool then repeatUntilGo cond child fuel (i + 1) (evalChild (child i))
      else some (.ret result, i)

/-- One evaluation of the node built by `repeat_until` (control.py lines
112-134): the recorded result starts as the generic FAILURE (line 123). -/
def repeatUntil (cond child : Nat → Outcome) (fuel : Nat) : Option (Outcome × Nat) :=
  repeatUntilGo cond child fuel 0 Result.failure

/-- The ordered list of recorded results after the first k children of a
sequence evaluation (the `results` list of `_sequence`). -/
def resultsUpto (children : List Outcome) (k : Nat) : List Result :=
  (children.take k).map evalChild

/-- The recorded result of child number i (0-based) of a sequence evaluation. -/
def childResult (children : List Outcome) (i : Nat) : Result :=
  evalChild (children.getD i (Outcome.ret Result.failure))

/-- Number of successes among the first k recorded results. -/
def succCount (children : List Outcome) (k : Nat) : Nat :=
  (resultsUpto children k).countP (fun r => r.toBool)

/-- Number of failures among the first k recorded results. -/
def failCount (children : List Outcome) (k : Nat) : Nat :=
  (resultsUpto children k).countP (fun r => !r.toBool)

/-- A condition outcome that reports Success: a returned truthy value. -/
def isTrueRet : Outcome → Bool
  | .ret c => c.toBool
  | .raise _ => false

/-- A condition outcome that reports Failure: a returned falsy value. -/
def isFalseRet : Outcome → Bool
  | .ret c => !c.toBool
  | .raise _ => false

/-- Whether an outcome is a raised error. -/
def isRaise : Outcome → Bool
  | .ret _ => false
  | .raise _ => true

/-- Whether a Result is a captured-error wrapper. -/
def isErrWrap : Result → Bool
  | .exc _ => true
  | _ => false

/-- Whether an outcome returns a captured-error wrapper as its value (an
honest leaf never does: it returns its own value or raises). -/
def returnsErrWrap : Outcome → Bool
  | .ret v => isErrWrap v
  | .raise _ => false

/-- A concrete succeeding child used by witnesses. -/
def exA : Outcome := Outcome.ret (Result.val true 0)

/-- A concrete failing child used by witnesses. -/
def exF : Outcome := Outcome.ret (Result.val false 1)

/-- A second concrete succeeding child used by witnesses. -/
def exB : Outcome := Outcome.ret (Result.val true 2)

/-- A concrete condition used by witnesses: it reports Success on its first
two evaluations and Failure afterwards. -/
def exCond : Nat → Outcome := fun i =>
  if i < 2 then Outcome.ret (Result.val true 3) else Outcome.ret (Result.val false 3)

/-- A concrete child used by witnesses: it raises on its first evaluation and
returns a truthy value afterwards. -/
def exChild : Nat → Outcome := fun i =>
  if i = 0 then Outcome.raise 9 else Outcome.ret (Result.val true 4)

/-- A concrete child used by witnesses: it returns a truthy value on every
evaluation. -/
def exChildPlain : Nat → Outcome := fun i => Outcome.ret (Result.val true i)

/-- The counts of an empty prefix are zero. -/
theorem succCount_zero (cs : List Outcome) : succCount cs 0 = 0 := rfl

/-- The failure count of an empty prefix is zero. -/
theorem failCount_zero (cs : List Outcome) : failCount cs 0 = 0 := rfl

/-- Unfolding the recorded-results prefix over a cons. -/
theorem resultsUpto_cons_succ (c : Outcome) (cs : List Outcome) (k : Nat) :
    resultsUpto (c :: cs) (k + 1) = evalChild c :: resultsUpto cs k := rfl

/-- Unfolding the success count over a cons. -/
theorem succCount_cons_succ (c : Outcome) (cs : List Outcome) (j : Nat) :
    succCount (c :: cs) (j + 1) =
      succCount cs j + (if (evalChild c).toBool then 1 else 0) := by
  simp [succCount, resultsUpto, List.countP_cons]

/-- Unfolding the failure count over a cons. -/
theorem failCount_cons_succ (c : Outcome) (cs : List Outcome) (j : Nat) :
    failCount (c :: cs) (j + 1) =
      failCount cs j + (if (evalChild c).toBool then 0 else 1) := by
  simp only [failCount, resultsUpto_cons_succ, List.countP_cons]
  cases h : (evalChild c).toBool <;> simp [h]

/-- The recorded result of the head child. -/
theorem childResult_cons_zero (c : Outcome) (cs : List Outcome) :
    childResult (c :: cs) 0 = evalChild c := rfl

/-- Shifting the recorded-result index over a cons. -/
theorem childResult_cons_of_pos (c : Outcome) (cs : List Outcome) (k : Nat)
    (hk : 1 ≤ k) : childResult (c :: cs) k = childResult cs (k - 1) := by
  match k, hk with
  | k + 1, _ => simp [childResult]

/-- Characterization of the `_sequence` loop: whenever both counters are
strictly below their thresholds and enough children remain for one threshold
to be reachable, the loop exits through one of its two in-loop returns at the
first child index where a counter meets its threshold, returning the
accumulated list on success and the triggering child's own recorded result on
failure. -/
theorem seqLoop_char (st ft : Nat) (cs : List Outcome) :
    ∀ (s f : Nat) (acc : List Result),
      s < st → f < ft → st - s + (ft - f) ≤ cs.length + 1 →
      ∃ k, 1 ≤ k ∧ k ≤ cs.length ∧
        (∀ j, j < k → s + succCount cs j < st ∧ f + failCount cs j < ft) ∧
        ((s + succCount cs k = st ∧ (childResult cs (k - 1)).toBool = true ∧
            seqLoop st ft cs s f acc = (Result.agg (acc ++ resultsUpto cs k), k)) ∨
         (f + failCount cs k = ft ∧ (childResult cs (k - 1)).toBool = false ∧
            seqLoop st ft cs s f acc = (childResult cs (k - 1), k))) := by
  induction cs with
  | nil =>
      intro s f acc hs hf hlen
      simp only [List.length_nil] at hlen
      omega
  | cons c cs ih =>
      intro s f acc hs hf hlen
      simp only [List.length_cons] at hlen
      by_cases hc : (evalChild c).toBool = true
      · by_cases hst : s + 1 = st
        · refine ⟨1, le_refl 1, by simp only [List.length_cons]; omega,
            ?_, Or.inl ⟨?_, ?_, ?_⟩⟩
          · intro j hj
            have hj0 : j = 0 := by omega
            subst hj0
            simp only [succCount_zero, failCount_zero]
            omega
          · have h1 : succCount (c :: cs) 1 = 1 := by
              simp [succCount, resultsUpto, List.countP_cons, hc]
            omega
          · simpa [childResult_cons_zero] using hc
          · simp [seqLoop, hc, hst, resultsUpto]
        · have hs' : s + 1 < st := by omega
          have hlen' : st - (s + 1) + (ft - f) ≤ cs.length + 1 := by omega
          obtain ⟨k, hk1, hk2, hfirst, hout⟩ :=
            ih (s + 1) f (acc ++ [evalChild c]) hs' hf hlen'
          have hloop : seqLoop st ft (c :: cs) s f acc =
              ((seqLoop st ft cs (s + 1) f (acc ++ [evalChild c])).1,
               (seqLoop st ft cs (s + 1) f (acc ++ [evalChild c])).2 + 1) := by
            simp [seqLoop, hc, hst]
          refine ⟨k + 1, by omega, by simp only [List.length_cons]; omega, ?_, ?_⟩
          · intro j hj
            match j with
            | 0 =>
                simp only [succCount_zero, failCount_zero]
                omega
            | j + 1 =>
                have h1 := hfirst j (by omega)
                rw [succCount_cons_succ, failCount_cons_succ]
                simp only [hc, if_true]
                omega
          · rcases hout with ⟨h1, h2, h3⟩ | ⟨h1, h2, h3⟩
            · refine Or.inl ⟨?_, ?_, ?_⟩
              · rw [succCount_cons_succ]
                simp only [hc, if_true]
                omega
              · show (childResult (c :: cs) k).toBool = true
                rw [childResult_cons_of_pos c cs k hk1]
                exact h2
              · rw [hloop, h3]
                show (Result.agg ((acc ++ [evalChild c]) ++ resultsUpto cs k), k + 1) =
                  (Result.agg (acc ++ resultsUpto (c :: cs) (k + 1)), k + 1)
                rw [resultsUpto_cons_succ, List.append_assoc, List.singleton_append]
            · refine Or.inr ⟨?_, ?_, ?_⟩
              · rw [failCount_cons_succ]
                simp only [hc, if_true]
                omega
              · show (childResult (c :: cs) k).toBool = false
                rw [childResult_cons_of_pos c cs k hk1]
                exact h2
              · rw [hloop, h3]
                show (childResult cs (k - 1), k + 1) =
                  (childResult (c :: cs) k, k + 1)
                rw [childResult_cons_of_pos c cs k hk1]
      · have hcf : (evalChild c).toBool = false := by
          simpa using hc
        by_cases hft : f + 1 = ft
        · refine ⟨1, le_refl 1, by simp only [List.length_cons]; omega,
            ?_, Or.inr ⟨?_, ?_, ?_⟩⟩
          · intro j hj
            have hj0 : j = 0 := by omega
            subst hj0
            simp only [succCount_zero, failCount_zero]
            omega
          · have h1 : failCount (c :: cs) 1 = 1 := by
              simp [failCount, resultsUpto, List.countP_cons, hcf]
            omega
          · simpa [childResult_cons_zero] using hcf
          · simp [seqLoop, hcf, hft, childResult_cons_zero]
        · have hf' : f + 1 < ft := by omega
          have hlen' : st - s + (ft - (f + 1)) ≤ cs.length + 1 := by omega
          obtain ⟨k, hk1, hk2, hfirst, hout⟩ :=
            ih s (f + 1) (acc ++ [evalChild c]) hs hf' hlen'
          have hloop : seqLoop st ft (c :: cs) s f acc =
              ((seqLoop st ft cs s (f + 1) (acc ++ [evalChild c])).1,
               (seqLoop st ft cs s (f + 1) (acc ++ [evalChild c])).2 + 1) := by
            simp [seqLoop, hcf, hft]
          refine ⟨k + 1, by omega, by simp only [List.length_cons]; omega, ?_, ?_⟩
          · intro j hj
            match j with
            | 0 =>
                simp only [succCount_zero, failCount_zero]
                omega
            | j + 1 =>
                have h1 := hfirst j (by omega)
                rw [succCount_cons_succ, failCount_cons_succ]
                simp [hcf]
                omega
          · rcases hout with ⟨h1, h2, h3⟩ | ⟨h1, h2, h3⟩
            · refine Or.inl ⟨?_, ?_, ?_⟩
              · rw [succCount_cons_succ]
                simp [hcf]
                omega
              · show (childResult (c :: cs) k).toBool = true
                rw [childResult_cons_of_pos c cs k hk1]
                exact h2
              · rw [hloop, h3]
                show (Result.agg ((acc ++ [evalChild c]) ++ resultsUpto cs k), k + 1) =
                  (Result.agg (acc ++ resultsUpto (c :: cs) (k + 1)), k + 1)
                rw [resultsUpto_cons_succ, List.append_assoc, List.singleton_append]
            · refine Or.inr ⟨?_, ?_, ?_⟩
              · rw [failCount_cons_succ]
                simp [hcf]
                omega
              · show (childResult (c :: cs) k).toBool = false
                rw [childResult_cons_of_pos c cs k hk1]
                exact h2
              · rw [hloop, h3]
                show (childResult cs (k - 1), k + 1) =
                  (childResult (c :: cs) k, k + 1)
                rw [childResult_cons_of_pos c cs k hk1]

/-- A success count is at most the prefix length. -/
theorem succCount_le (cs : List Outcome) (k : Nat) : succCount cs k ≤ k := by
  calc succCount cs k ≤ (resultsUpto cs k).length := List.countP_le_length _
    _ = (cs.take k).length := by simp [resultsUpto]
    _ ≤ k := by simp [List.length_take]

/-- Success and failure counts over a prefix add up to the prefix length. -/
theorem succCount_add_failCount (cs : List Outcome) (k : Nat) :
    succCount cs k + failCount cs k = (cs.take k).length := by
  have h := List.length_eq_countP_add_countP (l := resultsUpto cs k)
    (p := fun r => r.toBool)
  simp only [succCount, failCount, resultsUpto] at *
  rw [List.length_map] at h
  rw [h]
  congr 1
  apply List.countP_congr
  intro r _
  cases hr : r.toBool <;> simp [hr]

/-- Stepping a failure count across child i. -/
theorem failCount_succ_eq (cs : List Outcome) (i : Nat) (hi : i < cs.length) :
    failCount cs (i + 1) =
      failCount cs i + (if (childResult cs i).toBool then 0 else 1) := by
  have ht : cs.take (i + 1) = cs.take i ++ [cs[i]] := by
    rw [List.take_succ, List.getElem?_eq_getElem hi]
    rfl
  have hcr : childResult cs i = evalChild cs[i] := by
    simp [childResult, List.getD_eq_getElem?_getD, List.getElem?_eq_getElem hi]
  simp only [failCount, resultsUpto, ht, List.map_append, List.countP_append,
    List.map_cons, List.map_nil, List.countP_cons, List.countP_nil, hcr]
  cases h : (evalChild cs[i]).toBool <;> simp [h]

/-- The recorded result of an in-range child occurs in the recorded list. -/
theorem childResult_mem (cs : List Outcome) (i : Nat) (hi : i < cs.length) :
    childResult cs i ∈ cs.map evalChild := by
  have hcr : childResult cs i = evalChild cs[i] := by
    simp [childResult, List.getD_eq_getElem?_getD, List.getElem?_eq_getElem hi]
  rw [hcr]
  exact List.mem_map_of_mem evalChild (List.getElem_mem hi)

/-- The `_sequence` loop looks at children only through their recorded
results, so two child lists with identical recorded results evaluate
identically. -/
theorem seqLoop_congr (st ft : Nat) (cs1 : List Outcome) :
    ∀ (cs2 : List Outcome) (s f : Nat) (acc : List Result),
      cs1.map evalChild = cs2.map evalChild →
      seqLoop st ft cs1 s f acc = seqLoop st ft cs2 s f acc := by
  induction cs1 with
  | nil =>
      intro cs2 s f acc h
      have : cs2 = [] := by
        cases cs2 with
        | nil => rfl
        | cons c cs => simp at h
      subst this
      rfl
  | cons c cs ih =>
      intro cs2 s f acc h
      cases cs2 with
      | nil => simp at h
      | cons c2 cs2 =>
          simp only [List.map_cons, List.cons.injEq] at h
          obtain ⟨h1, h2⟩ := h
          simp only [seqLoop, h1, ih cs2 _ _ _ h2]

/-- C1 counterexample: the claim quantifies over every threshold s in [0, n].
Take one failing child and s = 0.  The claim demands a Success (the success
count 0 already equals s, while the failure count can never reach
n - s + 1 = 2), but the code's falsy default turns threshold 0 into
len(children) = 1, and the evaluation returns the child's falsy Failure after
a failure count of 1. -/
theorem sequence_zero_threshold_not_success :
    sequence [Outcome.ret (Result.val false 5)] (some 0) =
      some (Result.val false 5, 1) ∧
    (Result.val false 5).toBool = false ∧
    failCount [Outcome.ret (Result.val false 5)] 1 = 1 :=
  ⟨rfl, rfl, rfl⟩

/-- C1 (amended to thresholds s in [1, n]): evaluating the node built by
sequence with threshold s stops at the first child index k at which either the
success count reaches s — returning Success carrying the full ordered list of
results up to and including the triggering (truthy) child — or the failure
count reaches n - s + 1 — returning the triggering child's own falsy recorded
result; the two trigger conditions can never hold at once. -/
theorem sequence_threshold_spec (children : List Outcome) (s : Nat)
    (h1 : 1 ≤ s) (h2 : s ≤ children.length) :
    ∃ k, 1 ≤ k ∧ k ≤ children.length ∧
      (∀ j, j < k →
        succCount children j < s ∧
        failCount children j < children.length - s + 1) ∧
      ¬(succCount children k = s ∧
        failCount children k = children.length - s + 1) ∧
      ((succCount children k = s ∧ (childResult children (k - 1)).toBool = true ∧
          sequence children (some s) =
            some (Result.agg (resultsUpto children k), k)) ∨
       (failCount children k = children.length - s + 1 ∧
          (childResult children (k - 1)).toBool = false ∧
          sequence children (some s) = some (childResult children (k - 1), k))) := by
  have hs0 : s ≠ 0 := by omega
  have heff : effThreshold children.length (some s) = s := by
    simp [effThreshold, hs0]
  have hseq : sequence children (some s) =
      some (seqLoop s (children.length - s + 1) children 0 0 []) := by
    simp [sequence, heff, h2]
  obtain ⟨k, hk1, hk2, hfirst, hout⟩ :=
    seqLoop_char s (children.length - s + 1) children 0 0 []
      (by omega) (by omega) (by omega)
  refine ⟨k, hk1, hk2, ?_, ?_, ?_⟩
  · intro j hj
    have := hfirst j hj
    omega
  · rintro ⟨ha, hb⟩
    have hsum := succCount_add_failCount children k
    have hlen : (children.take k).length ≤ children.length := by
      simp [List.length_take]
    omega
  · rcases hout with ⟨ha, hb, hc⟩ | ⟨ha, hb, hc⟩
    · refine Or.inl ⟨by omega, hb, ?_⟩
      rw [hseq, hc]
      simp
    · refine Or.inr ⟨by omega, hb, ?_⟩
      rw [hseq, hc]

/-- Witness for the amended C1 theorem at children [success, failure] and
threshold 1: the evaluation stops at the first child with a Success. -/
theorem sequence_threshold_spec_witness :
    ∃ k, 1 ≤ k ∧
      k ≤ ([Outcome.ret (Result.val true 0),
            Outcome.ret (Result.val false 1)] : List Outcome).length ∧
      (∀ j, j < k →
        succCount [Outcome.ret (Result.val true 0),
          Outcome.ret (Result.val false 1)] j < 1 ∧
        failCount [Outcome.ret (Result.val true 0),
          Outcome.ret (Result.val false 1)] j <
          ([Outcome.ret (Result.val true 0),
            Outcome.ret (Result.val false 1)] : List Outcome).length - 1 + 1) ∧
      ¬(succCount [Outcome.ret (Result.val true 0),
          Outcome.ret (Result.val false 1)] k = 1 ∧
        failCount [Outcome.ret (Result.val true 0),
          Outcome.ret (Result.val false 1)] k =
          ([Outcome.ret (Result.val true 0),
            Outcome.ret (Result.val false 1)] : List Outcome).length - 1 + 1) ∧
      ((succCount [Outcome.ret (Result.val true 0),
          Outcome.ret (Result.val false 1)] k = 1 ∧
        (childResult [Outcome.ret (Result.val true 0),
          Outcome.ret (Result.val false 1)] (k - 1)).toBool = true ∧
        sequence [Outcome.ret (Result.val true 0),
          Outcome.ret (Result.val false 1)] (some 1) =
          some (Result.agg (resultsUpto [Outcome.ret (Result.val true 0),
            Outcome.ret (Result.val false 1)] k), k)) ∨
       (failCount [Outcome.ret (Result.val true 0),
          Outcome.ret (Result.val false 1)] k =
          ([Outcome.ret (Result.val true 0),
            Outcome.ret (Result.val false 1)] : List Outcome).length - 1 + 1 ∧
        (childResult [Outcome.ret (Result.val true 0),
          Outcome.ret (Result.val false 1)] (k - 1)).toBool = false ∧
        sequence [Outcome.ret (Result.val true 0),
          Outcome.ret (Result.val false 1)] (some 1) =
          some (childResult [Outcome.ret (Result.val true 0),
            Outcome.ret (Result.val false 1)] (k - 1), k))) :=
  sequence_threshold_spec
    [Outcome.ret (Result.val true 0), Outcome.ret (Result.val false 1)] 1
    (by omega) (by simp)

/-- C3: the claim says sequence([]), fallback([]) and sequence(children, 0)
succeed trivially because zero successes are needed.  The code disagrees on
every count: the falsy default of control.py line 32 turns an explicit
threshold 0 into len(children), and with no children the loop body never runs,
so line 61 returns the generic falsy FAILURE.  This theorem evaluates the code
at the failing inputs: sequence([]) and fallback([]) return FAILURE, and
sequence([failing_child], 0) returns the child's Failure instead of an
immediate Success. -/
theorem sequence_zero_threshold_behavior :
    sequence ([] : List Outcome) none = some (Result.failure, 0) ∧
    fallback ([] : List Outcome) = some (Result.failure, 0) ∧
    Result.failure.toBool = false ∧
    sequence [Outcome.ret (Result.val false 0)] (some 0) =
      some (Result.val false 0, 1) ∧
    (Result.val false 0).toBool = false :=
  ⟨rfl, rfl, rfl, rfl, rfl⟩

/-- C2: with the default threshold (n), sequence behaves as classic AND: a
Success (carrying the full list of recorded results) iff every child's
recorded result is truthy; on the first falsy child it returns that child's
own recorded result immediately after having evaluated exactly the children
up to and including it, so the later children are never evaluated. -/
theorem sequence_default_and (children : List Outcome) (h : children ≠ []) :
    ∃ r k, sequence children none = some (r, k) ∧ k ≤ children.length ∧
      (r.toBool = true ↔ ∀ x ∈ children.map evalChild, x.toBool = true) ∧
      ((∀ x ∈ children.map evalChild, x.toBool = true) →
        r = Result.agg (children.map evalChild) ∧ k = children.length) ∧
      (∀ i, i < children.length →
        (∀ j, j < i → (childResult children j).toBool = true) →
        (childResult children i).toBool = false →
        r = childResult children i ∧ k = i + 1) := by
  have hn : 0 < children.length := List.length_pos.mpr h
  have hseq : sequence children none =
      some (seqLoop children.length 1 children 0 0 []) := by
    simp [sequence, effThreshold, Nat.sub_self]
  obtain ⟨k, hk1, hk2, hfirst, hout⟩ :=
    seqLoop_char children.length 1 children 0 0 [] hn (by omega) (by omega)
  rcases hout with ⟨ha, hb, hc⟩ | ⟨ha, hb, hc⟩
  · have hkn : k = children.length := by
      have h1 := succCount_le children k
      omega
    subst hkn
    have htake : children.take children.length = children := List.take_length _
    have hall : ∀ x ∈ children.map evalChild, x.toBool = true := by
      have h2 : succCount children children.length = children.length := by omega
      unfold succCount resultsUpto at h2
      rw [htake] at h2
      have hlenmap : (children.map evalChild).length = children.length := by simp
      rw [← hlenmap] at h2
      intro x hx
      exact List.countP_eq_length.mp h2 x hx
    have hrs : resultsUpto children children.length = children.map evalChild := by
      simp [resultsUpto, htake]
    refine ⟨Result.agg (children.map evalChild), children.length, ?_,
      le_refl _, ?_, ?_, ?_⟩
    · rw [hseq, hc, hrs]
      simp
    · constructor
      · intro _
        exact hall
      · intro _
        simp [Result.toBool, h]
    · intro _
      exact ⟨rfl, rfl⟩
    · intro i hi hprev hfal
      exfalso
      have h2 := hall (childResult children i) (childResult_mem children i hi)
      rw [hfal] at h2
      exact absurd h2 (by decide)
  · have hklt : k - 1 < children.length := by omega
    refine ⟨childResult children (k - 1), k, ?_, hk2, ?_, ?_, ?_⟩
    · rw [hseq, hc]
    · constructor
      · intro hbt
        rw [hb] at hbt
        exact absurd hbt (by decide)
      · intro hall
        have h2 := hall _ (childResult_mem children (k - 1) hklt)
        rw [hb] at h2
        exact absurd h2 (by decide)
    · intro hall
      exfalso
      have h2 := hall _ (childResult_mem children (k - 1) hklt)
      rw [hb] at h2
      exact absurd h2 (by decide)
    · intro i hi hprev hfal
      have hki : k - 1 = i := by
        rcases Nat.lt_or_ge (i + 1) k with hlt | hge
        · exfalso
          have h0 := hfirst (i + 1) hlt
          have hstep := failCount_succ_eq children i hi
          rw [if_neg] at hstep
          · omega
          · simp [hfal]
        · rcases Nat.lt_or_ge (k - 1) i with hlt2 | hge2
          · exfalso
            have h2 := hprev (k - 1) hlt2
            rw [hb] at h2
            exact absurd h2 (by decide)
          · omega
      exact ⟨by rw [hki], by omega⟩

/-- Witness for the C2 theorem at the spec's concrete scenario
sequence([a, f, b]) where f fails: the result is f's own recorded Failure and
only two children are evaluated, so b never runs. -/
theorem sequence_default_and_witness :
    ∃ r k, sequence [exA, exF, exB] none = some (r, k) ∧
      k ≤ ([exA, exF, exB] : List Outcome).length ∧
      (r.toBool = true ↔ ∀ x ∈ ([exA, exF, exB] : List Outcome).map evalChild,
        x.toBool = true) ∧
      ((∀ x ∈ ([exA, exF, exB] : List Outcome).map evalChild, x.toBool = true) →
        r = Result.agg (([exA, exF, exB] : List Outcome).map evalChild) ∧
        k = ([exA, exF, exB] : List Outcome).length) ∧
      (∀ i, i < ([exA, exF, exB] : List Outcome).length →
        (∀ j, j < i → (childResult [exA, exF, exB] j).toBool = true) →
        (childResult [exA, exF, exB] i).toBool = false →
        r = childResult [exA, exF, exB] i ∧ k = i + 1) :=
  sequence_default_and [exA, exF, exB] (by simp)

/-- The `sequence` evaluation looks at children only through their recorded
results. -/
theorem sequence_congr (cs1 cs2 : List Outcome) (t? : Option Nat)
    (h : cs1.map evalChild = cs2.map evalChild) :
    sequence cs1 t? = sequence cs2 t? := by
  have hlen : cs1.length = cs2.length := by
    have h2 := congrArg List.length h
    simpa using h2
  unfold sequence
  rw [hlen, seqLoop_congr (effThreshold cs2.length t?)
    (cs2.length - effThreshold cs2.length t? + 1) cs1 cs2 0 0 [] h]

/-- C8 counterexample: sequence([]) is a valid construction (its threshold
defaults to 0 = len(children) and passes the assertion), yet its evaluation
runs the loop body zero times, so the generic FAILURE it returns with zero
children evaluated is exactly the defensive post-loop return of control.py
line 61 occurring as the normal outcome. -/
theorem sequence_empty_reaches_postloop :
    sequence ([] : List Outcome) none = some (Result.failure, 0) ∧
    Result.failure.toBool = false :=
  ⟨rfl, rfl⟩

/-- C8 (amended to non-empty children): for every construction of sequence
over a non-empty children list whose effective threshold passes the
construction assertion, the evaluation exits through an in-loop threshold
return: after at least one child, one of the two trigger counts is met
exactly, so the defensive post-loop return of line 61 is unreachable. -/
theorem sequence_inloop_exit (children : List Outcome) (t? : Option Nat)
    (hne : children ≠ [])
    (hvalid : effThreshold children.length t? ≤ children.length) :
    ∃ k r, sequence children t? = some (r, k) ∧ 1 ≤ k ∧ k ≤ children.length ∧
      ((succCount children k = effThreshold children.length t? ∧
          r = Result.agg (resultsUpto children k)) ∨
       (failCount children k =
          children.length - effThreshold children.length t? + 1 ∧
          r = childResult children (k - 1))) := by
  have hn : 0 < children.length := List.length_pos.mpr hne
  have hpos : 0 < effThreshold children.length t? := by
    rcases t? with _ | u
    · simpa [effThreshold] using hn
    · simp only [effThreshold]
      by_cases hu : u = 0
      · simpa [hu] using hn
      · simpa [hu] using Nat.pos_of_ne_zero hu
  have hseq : sequence children t? =
      some (seqLoop (effThreshold children.length t?)
        (children.length - effThreshold children.length t? + 1)
        children 0 0 []) := by
    simp [sequence, hvalid]
  obtain ⟨k, hk1, hk2, hfirst, hout⟩ :=
    seqLoop_char (effThreshold children.length t?)
      (children.length - effThreshold children.length t? + 1) children 0 0 []
      hpos (by omega) (by omega)
  rcases hout with ⟨ha, hb, hc⟩ | ⟨ha, hb, hc⟩
  · refine ⟨k, Result.agg (resultsUpto children k), ?_, hk1, hk2,
      Or.inl ⟨by omega, rfl⟩⟩
    rw [hseq, hc]
    simp
  · refine ⟨k, childResult children (k - 1), ?_, hk1, hk2,
      Or.inr ⟨by omega, rfl⟩⟩
    rw [hseq, hc]

/-- Witness for the amended C8 theorem: a one-child list with a failing child
exits through the in-loop failure return. -/
theorem sequence_inloop_exit_witness :
    ∃ k r, sequence [exF] none = some (r, k) ∧ 1 ≤ k ∧
      k ≤ ([exF] : List Outcome).length ∧
      ((succCount [exF] k = effThreshold ([exF] : List Outcome).length none ∧
          r = Result.agg (resultsUpto [exF] k)) ∨
       (failCount [exF] k =
          ([exF] : List Outcome).length -
            effThreshold ([exF] : List Outcome).length none + 1 ∧
          r = childResult [exF] (k - 1))) :=
  sequence_inloop_exit [exF] none (by simp) (by decide)

/-- C4: a child that raises inside sequence is recorded as the falsy captured
error for that iteration (so it counts toward the failure threshold exactly
as a returned Failure would), the evaluation is identical to that of a child
returning the captured error, and the overall evaluation completes with a
Result. -/
theorem sequence_contains_child_errors (pre post : List Outcome) (e : Nat)
    (s : Nat) (hs : s ≤ pre.length + 1 + post.length) :
    evalChild (Outcome.raise e) = Result.exc e ∧
    (Result.exc e).toBool = false ∧
    childResult (pre ++ Outcome.raise e :: post) pre.length = Result.exc e ∧
    sequence (pre ++ Outcome.raise e :: post) (some s) =
      sequence (pre ++ Outcome.ret (Result.exc e) :: post) (some s) ∧
    ∃ res, sequence (pre ++ Outcome.raise e :: post) (some s) = some res := by
  have hL : (pre ++ Outcome.raise e :: post).length =
      pre.length + 1 + post.length := by
    simp
    omega
  refine ⟨rfl, rfl, ?_, ?_, ?_⟩
  · simp [childResult, List.getD_eq_getElem?_getD,
      List.getElem?_append_right (le_refl pre.length), Nat.sub_self, evalChild]
  · apply sequence_congr
    simp [evalChild]
  · have heff : effThreshold (pre ++ Outcome.raise e :: post).length (some s) ≤
        (pre ++ Outcome.raise e :: post).length := by
      simp only [effThreshold]
      by_cases h0 : s = 0
      · simp [h0]
      · simp only [h0, if_false]
        omega
    exact ⟨_, if_pos heff⟩

/-- Witness for the C4 theorem: a single raising child under the default-like
threshold 1. -/
theorem sequence_contains_child_errors_witness :
    evalChild (Outcome.raise 7) = Result.exc 7 ∧
    (Result.exc 7).toBool = false ∧
    childResult ([] ++ Outcome.raise 7 :: []) ([] : List Outcome).length =
      Result.exc 7 ∧
    sequence ([] ++ Outcome.raise 7 :: []) (some 1) =
      sequence ([] ++ Outcome.ret (Result.exc 7) :: []) (some 1) ∧
    ∃ res, sequence ([] ++ Outcome.raise 7 :: []) (some 1) = some res :=
  sequence_contains_child_errors [] [] 7 1 (by decide)

/-- C6: the decision node returns the success tree's outcome when the
condition's result is truthy, otherwise the failure tree's outcome when one
was provided and the generic FAILURE when not; and in every call at most one
of the two branches is evaluated. -/
theorem decision_spec (c : Result) (sTree : Outcome) (fTree : Option Outcome) :
    (c.toBool = true →
      decisionEval (Outcome.ret c) sTree fTree = (sTree, true, false)) ∧
    (c.toBool = false → fTree = none →
      decisionEval (Outcome.ret c) sTree fTree =
        (Outcome.ret Result.failure, false, false)) ∧
    (∀ t, c.toBool = false → fTree = some t →
      decisionEval (Outcome.ret c) sTree fTree = (t, false, true)) ∧
    (∀ condition,
      ((decisionEval condition sTree fTree).2.1 &&
        (decisionEval condition sTree fTree).2.2) = false) := by
  refine ⟨?_, ?_, ?_, ?_⟩
  · intro h
    simp [decisionEval, h]
  · intro h hf
    subst hf
    simp [decisionEval, h]
  · intro t h hf
    subst hf
    simp [decisionEval, h]
  · intro condition
    rcases condition with v | e2
    · by_cases h : v.toBool = true
      · simp [decisionEval, h]
      · have h' : v.toBool = false := by simpa using h
        rcases fTree with _ | t <;> simp [decisionEval, h']
    · simp [decisionEval]

/-- Witness for the C6 theorem: a truthy condition selects the success tree
and leaves the failure tree unevaluated. -/
theorem decision_spec_witness :
    decisionEval (Outcome.ret (Result.val true 1)) exA (some exF) =
      (exA, true, false) :=
  (decision_spec (Result.val true 1) exA (some exF)).1 rfl

/-- Characterization of the `_repeat_until` loop starting at condition
evaluation i with recorded result res: if the condition reports Success for
the next m checks and Failure on check m, the loop performs exactly m more
child evaluations and returns the recorded result of the last one (res if
m = 0). -/
theorem repeatUntilGo_spec (cond child : Nat → Outcome) :
    ∀ (m fuel i : Nat) (res : Result),
      (∀ j, j < m → isTrueRet (cond (i + j)) = true) →
      isFalseRet (cond (i + m)) = true →
      m < fuel →
      repeatUntilGo cond child fuel i res =
        some (Outcome.ret (if m = 0 then res else evalChild (child (i + m - 1))),
          i + m) := by
  intro m
  induction m with
  | zero =>
      intro fuel i res _ hFalse hfuel
      match fuel, hfuel with
      | fuel + 1, _ =>
        simp only [Nat.add_zero] at hFalse ⊢
        cases hcc : cond i with
        | raise e2 =>
            rw [hcc] at hFalse
            simp [isFalseRet] at hFalse
        | ret c =>
            have hcb : c.toBool = false := by
              rw [hcc] at hFalse
              simpa [isFalseRet] using hFalse
            simp [repeatUntilGo, hcc, hcb]
  | succ m ih =>
      intro fuel i res hTrue hFalse hfuel
      match fuel, hfuel with
      | fuel + 1, hfuel =>
        have h0 : isTrueRet (cond i) = true := by
          simpa using hTrue 0 (Nat.succ_pos m)
        cases hcc : cond i with
        | raise e2 =>
            rw [hcc] at h0
            simp [isTrueRet] at h0
        | ret c =>
            have hcb : c.toBool = true := by
              rw [hcc] at h0
              simpa [isTrueRet] using h0
            have hstep : repeatUntilGo cond child (fuel + 1) i res =
                repeatUntilGo cond child fuel (i + 1) (evalChild (child i)) := by
              simp [repeatUntilGo, hcc, hcb]
            rw [hstep]
            have hT' : ∀ j, j < m → isTrueRet (cond (i + 1 + j)) = true := by
              intro j hj
              have h2 := hTrue (j + 1) (by omega)
              rwa [show i + (j + 1) = i + 1 + j by omega] at h2
            have hF' : isFalseRet (cond (i + 1 + m)) = true := by
              rwa [show i + (m + 1) = i + 1 + m by omega] at hFalse
            rw [ih fuel (i + 1) (evalChild (child i)) hT' hF' (by omega)]
            by_cases hm : m = 0
            · subst hm
              simp
            · rw [if_neg hm, if_neg (by omega : ¬(m + 1 = 0)),
                show i + 1 + m - 1 = i + (m + 1) - 1 by omega,
                show i + 1 + m = i + (m + 1) by omega]

/-- C7: if the condition reports Failure on the very first check the child is
evaluated zero times and repeat_until returns the generic FAILURE; if the
condition reports Success for exactly m checks and then Failure, the child is
evaluated exactly m times — never on the terminating check — and the returned
Result is the m-th child evaluation's recorded result. -/
theorem repeatUntil_spec (cond child : Nat → Outcome) (m fuel : Nat)
    (hTrue : ∀ j, j < m → isTrueRet (cond j) = true)
    (hFalse : isFalseRet (cond m) = true)
    (hfuel : m < fuel) :
    repeatUntil cond child fuel =
      some (Outcome.ret (if m = 0 then Result.failure
        else evalChild (child (m - 1))), m) := by
  have h := repeatUntilGo_spec cond child m fuel 0 Result.failure
    (by
      intro j hj
      simpa using hTrue j hj)
    (by simpa using hFalse) hfuel
  simpa [repeatUntil] using h

/-- Witness for the C7 theorem: the condition succeeds twice then fails, so
the child runs exactly twice and the second child result is returned. -/
theorem repeatUntil_spec_witness :
    repeatUntil exCond exChildPlain 5 =
      some (Outcome.ret (if (2 : Nat) = 0 then Result.failure
        else evalChild (exChildPlain (2 - 1))), 2) :=
  repeatUntil_spec exCond exChildPlain 2 5 (by decide) (by decide) (by decide)

/-- C10: under a condition that succeeds for m checks (m at least 1) and then
fails, child errors never terminate the loop: even if earlier iterations
raised, exactly m child evaluations happen and the returned Result is the
recorded result of the last one; provided the last child does not itself
return a captured-error wrapper, the returned Result is an error wrapper
exactly when the last iteration raised. -/
theorem repeatUntil_error_overwrite (cond child : Nat → Outcome) (m fuel : Nat)
    (hm : 1 ≤ m)
    (hTrue : ∀ j, j < m → isTrueRet (cond j) = true)
    (hFalse : isFalseRet (cond m) = true)
    (hfuel : m < fuel)
    (hhonest : returnsErrWrap (child (m - 1)) = false) :
    repeatUntil cond child fuel =
      some (Outcome.ret (evalChild (child (m - 1))), m) ∧
    isErrWrap (evalChild (child (m - 1))) = isRaise (child (m - 1)) := by
  constructor
  · have h := repeatUntilGo_spec cond child m fuel 0 Result.failure
      (by
        intro j hj
        simpa using hTrue j hj)
      (by simpa using hFalse) hfuel
    have hm0 : m ≠ 0 := by omega
    simpa [repeatUntil, hm0] using h
  · cases hch : child (m - 1) with
    | ret v =>
        rw [hch] at hhonest
        simp only [returnsErrWrap] at hhonest
        simp [evalChild, isRaise, hhonest]
    | raise e2 =>
        simp [evalChild, isRaise, isErrWrap]

/-- Witness for the C10 theorem: the child raises on its first iteration, the
condition still succeeds once more, and the second (plain) child result is
what repeat_until returns — the captured error was overwritten. -/
theorem repeatUntil_error_overwrite_witness :
    (repeatUntil exCond exChild 5 =
      some (Outcome.ret (evalChild (exChild (2 - 1))), 2) ∧
     isErrWrap (evalChild (exChild (2 - 1))) = isRaise (exChild (2 - 1))) :=
  repeatUntil_error_overwrite exCond exChild 2 5 (by decide) (by decide)
    (by decide) (by decide) (by decide)

/-- C5 counterexample: a decision node whose condition raises re-raises that
error — the combinator's evaluation terminates abnormally with the raised
error instead of completing with a Result, so the error is not contained at
the combinator boundary. -/
theorem decision_reraises_condition_error :
    decisionEval (Outcome.raise 7) (Outcome.ret (Result.val true 0)) none =
      (Outcome.raise 7, false, false) :=
  rfl

/-- C5 (amended): containment holds exactly where control.py installs a
try/except.  sequence, fallback and selector contain errors raised by any
child: their evaluation always completes with a Result.  repeat_until
contains errors raised by its child: a raising iteration merely records the
captured error and the loop continues.  But decision re-raises an error from
its condition, and repeat_until re-raises an error from its condition. -/
theorem error_containment_per_combinator :
    (∀ (children : List Outcome) (t : Nat), t ≤ children.length →
      ∃ res, sequence children (some t) = some res) ∧
    (∀ children : List Outcome, ∃ res, fallback children = some res) ∧
    (∀ children : List Outcome, selector children = fallback children) ∧
    (∀ (e2 : Nat) (sTree : Outcome) (fTree : Option Outcome),
      decisionEval (Outcome.raise e2) sTree fTree =
        (Outcome.raise e2, false, false)) ∧
    (∀ (cond child : Nat → Outcome) (fuel e2 : Nat),
      cond 0 = Outcome.raise e2 →
      repeatUntil cond child (fuel + 1) = some (Outcome.raise e2, 0)) ∧
    (∀ (cond child : Nat → Outcome) (fuel i : Nat) (res c : Result) (e2 : Nat),
      cond i = Outcome.ret c → c.toBool = true → child i = Outcome.raise e2 →
      repeatUntilGo cond child (fuel + 1) i res =
        repeatUntilGo cond child fuel (i + 1) (Result.exc e2)) := by
  refine ⟨?_, ?_, fun _ => rfl, fun _ _ _ => rfl, ?_, ?_⟩
  · intro children t ht
    have heff : effThreshold children.length (some t) ≤ children.length := by
      simp only [effThreshold]
      by_cases h0 : t = 0
      · simp [h0]
      · simp only [h0, if_false]
        exact ht
    exact ⟨_, if_pos heff⟩
  · intro children
    have hmin := Nat.min_le_right 1 children.length
    have heff : effThreshold children.length (some (min 1 children.length)) ≤
        children.length := by
      simp only [effThreshold]
      by_cases h0 : min 1 children.length = 0
      · simp [h0]
      · simp only [h0, if_false]
        exact hmin
    exact ⟨_, if_pos heff⟩
  · intro cond child fuel e2 hc
    simp [repeatUntil, repeatUntilGo, hc]
  · intro cond child fuel i res c e2 hc hct hch
    simp [repeatUntilGo, hc, hct, hch, evalChild]

/-- Witness for the amended C5 theorem: a sequence over one raising child
completes with a Result; a decision with a raising condition re-raises; a
repeat_until with a raising condition re-raises. -/
theorem error_containment_per_combinator_witness :
    (∃ res, sequence [Outcome.raise 3] (some 1) = some res) ∧
    decisionEval (Outcome.raise 5) exA none = (Outcome.raise 5, false, false) ∧
    repeatUntil (fun _ => Outcome.raise 4) exChildPlain 3 =
      some (Outcome.raise 4, 0) :=
  ⟨error_containment_per_combinator.1 [Outcome.raise 3] 1 (by decide),
   error_containment_per_combinator.2.2.2.1 5 exA none,
   error_containment_per_combinator.2.2.2.2.1 (fun _ => Outcome.raise 4)
     exChildPlain 2 4 rfl⟩

end AsyncBtree
